import Mathlib

/-!
Shallow embedding of the mgrep command-line search utility (src/lib.rs,
src/main.rs) and verification of its specification.

Strings are modelled as lists of Unicode scalar values (List Char); Rust
byte indices become character indices, which agrees with the source on the
properties below because every slice the source takes is produced and
consumed in the same unit.  Fallible operations return explicit result
types.  The ambient process environment (the IGNORE_CASE variable) and the
standard-input stream are passed as explicit parameters.
-/

/-- Convert a string literal to the character-list representation used
throughout the development. -/
def chars (s : String) : List Char := s.data

/-- Boolean test that the first list is a prefix of the second
(same decidable content as starts-with on strings). -/
def isPrefixOfB : List Char → List Char → Bool
  | [], _ => true
  | _ :: _, [] => false
  | a :: as, b :: bs => a == b && isPrefixOfB as bs

/-- Model of Rust str::find with a string pattern: index of the first
occurrence of the needle in the haystack, if any.  An empty needle is
found at index 0, exactly as in Rust. -/
def findSub (needle : List Char) : List Char → Option Nat
  | [] => if isPrefixOfB needle [] then some 0 else none
  | c :: rest =>
    if isPrefixOfB needle (c :: rest) then some 0
    else (findSub needle rest).map (· + 1)

/-- Model of Rust str::contains with a string pattern. -/
def containsStr (hay needle : List Char) : Bool := (findSub needle hay).isSome

/-- Model of Rust str::contains with a char pattern. -/
def containsChar (s : List Char) (c : Char) : Bool := s.any (· == c)

/-- Model of Rust char::to_lowercase on the character ranges the
development reasons about: U+0130 (LATIN CAPITAL LETTER I WITH DOT ABOVE)
expands to the two-character sequence i + U+0307, the canonical example of
a character whose lowercase form is longer than the character itself;
U+212A KELVIN SIGN lowers to k; the cased Latin-1 range U+00C0..U+00DE
(multiplication sign excluded) and the Greek capitals U+0391..U+03A9
(U+03A2 is unassigned) lower by adding 32, exactly as in the Unicode
simple-lowercase table; ASCII capitals are lowered as usual.  Characters
outside these ranges are treated as caseless. -/
def lowerChar (c : Char) : List Char :=
  if c = 'İ' then ['i', '̇']
  else if c.toNat = 0x212A then [Char.ofNat 0x6B]
  else if 0xC0 ≤ c.toNat ∧ c.toNat ≤ 0xDE ∧ c.toNat ≠ 0xD7 then [Char.ofNat (c.toNat + 32)]
  else if 0x391 ≤ c.toNat ∧ c.toNat ≤ 0x3A9 ∧ c.toNat ≠ 0x3A2 then [Char.ofNat (c.toNat + 32)]
  else [Char.toLower c]

/-- Context-free approximation of Rust str::to_lowercase: concatenation of
the per-character lowercase forms.  This drops the Final_Sigma rule of the
real str::to_lowercase (the context-sensitive choice between σ and ς for a
capital sigma); toLowercaseFull below models that rule as well. -/
def toLowercase : List Char → List Char
  | [] => []
  | c :: rest => lowerChar c ++ toLowercase rest

/-- The single-character lowercase form of a character, used when the
per-character folding is length-preserving. -/
def foldChar (c : Char) : Char := (lowerChar c).headD c

/-- Model of Rust str::trim_matches with a char pattern: remove every
leading and every trailing occurrence of the character. -/
def trimMatches (c : Char) (s : List Char) : List Char :=
  ((s.dropWhile (· == c)).reverse.dropWhile (· == c)).reverse

/-- Remove one carriage return that immediately precedes a line feed; the
argument is the reversed line accumulated so far, the result is the line in
source order. -/
def chompCR : List Char → List Char
  | '\r' :: acc => acc.reverse
  | acc => acc.reverse

/-- Worker for the model of Rust str::lines; the second argument is the
current line accumulated in reverse. -/
def rustLinesAux : List Char → List Char → List (List Char)
  | [], [] => []
  | [], acc => [acc.reverse]
  | c :: rest, acc =>
    if c = '\n' then chompCR acc :: rustLinesAux rest []
    else rustLinesAux rest (c :: acc)

/-- Model of Rust str::lines: split at line feeds, strip a carriage return
that ends a line, and produce no trailing empty line for a final line
terminator. -/
def rustLines (s : List Char) : List (List Char) := rustLinesAux s []

/-- The enum for Config.input in src/lib.rs. -/
inductive InputType
  | FilePath (p : List Char)
  | LiteralInput (t : List Char)
deriving DecidableEq

/-- Outcome of Config::get_query: the help early exit, a query string, or
the missing-query error. -/
inductive QueryResult
  | helpExit
  | found (q : List Char)
  | missingQuery
deriving DecidableEq

/-- State of the standard-input stream handed to the resolver: either its
full contents or an I/O fault. -/
inductive StdinRead
  | ok (s : List Char)
  | err
deriving DecidableEq

/-- Outcome of Config::get_input. -/
inductive InputResult
  | ok (i : InputType)
  | readErr
deriving DecidableEq

/-- The Config struct of src/lib.rs. -/
structure Config where
  query : List Char
  ignore_case : Bool
  input : InputType
deriving DecidableEq

/-- Outcome of Config::build: the help early exit (a process exit inside
get_query), a build error, or a resolved configuration. -/
inductive BuildResult
  | helpExit
  | buildErr
  | ok (c : Config)
deriving DecidableEq

/-- Config::get_query from src/lib.rs: take the first remaining token; if
the token fails the condition !contains("-h") || !contains("--help") the
help message is printed and the process exits, otherwise the token is the
query.  A missing token is the missing-query error. -/
def get_query (args : List (List Char)) : QueryResult :=
  match args with
  | [] => .missingQuery
  | arg :: _ =>
    if !(containsStr arg (chars "-h")) || !(containsStr arg (chars "--help")) then
      .found arg
    else
      .helpExit

/-- The scan for -i / --ignore-case in Config::get_ignore_case. -/
def hasIgnoreFlag (args : List (List Char)) : Bool :=
  args.any (fun arg => arg == chars "-i" || arg == chars "--ignore-case")

/-- The scan for -ni / --no-ignore-case in Config::get_ignore_case. -/
def hasNoIgnoreFlag (args : List (List Char)) : Bool :=
  args.any (fun arg => arg == chars "-ni" || arg == chars "--no-ignore-case")

/-- Config::get_ignore_case from src/lib.rs; env is the value of the
IGNORE_CASE environment variable, none when it is undefined, so that
env::var("IGNORE_CASE").is_ok() is env.isSome. -/
def get_ignore_case (args : List (List Char)) (env : Option (List Char)) : Bool :=
  if hasNoIgnoreFlag args then false
  else if hasIgnoreFlag args then true
  else env.isSome

/-- A token that contains a path separator, the condition of the find in
Config::get_input. -/
def hasPathSep (arg : List Char) : Bool :=
  containsChar arg '/' || containsChar arg '\\'

/-- Config::get_input from src/lib.rs: the first token containing '/' or
'\\' becomes FilePath; otherwise standard input is read to the end,
trim_matches('"') is applied, and the result is LiteralInput; a read fault
is the error outcome. -/
def get_input (args : List (List Char)) (stdin : StdinRead) : InputResult :=
  match args.find? hasPathSep with
  | some arg => .ok (.FilePath arg)
  | none =>
    match stdin with
    | .ok s => .ok (.LiteralInput (trimMatches '"' s))
    | .err => .readErr

/-- Config::build from src/lib.rs: drop the program name, then resolve the
query (help exits, a missing query errors), the case flag, and the input
source (a standard-input fault errors) in that order. -/
def Config.build (argv : List (List Char)) (env : Option (List Char))
    (stdin : StdinRead) : BuildResult :=
  let required_args := argv.tail
  match get_query required_args with
  | .missingQuery => .buildErr
  | .helpExit => .helpExit
  | .found query =>
    let ignore_case := get_ignore_case required_args env
    match get_input required_args stdin with
    | .readErr => .buildErr
    | .ok input => .ok { query := query, ignore_case := ignore_case, input := input }

/-- The search function of src/lib.rs: lower the query once when the
search is case-insensitive, then keep the lines accepted by the line
filter, which for the case-insensitive branch lowers the line and lowers
the (already lowered) query again, exactly as the source closure does. -/
def search (query : List Char) (ignore_case : Bool) (contents : List Char) :
    List (List Char) :=
  let q := if ignore_case then toLowercase query else query
  let lineFilter : List Char → Bool :=
    if ignore_case then fun line => containsStr (toLowercase line) (toLowercase q)
    else fun line => containsStr line q
  (rustLines contents).filter lineFilter

/-- One segment of the output of print_highlighted: a verbatim span or a
span wrapped in the highlight marker pair. -/
inductive Seg
  | raw (s : List Char)
  | hl (s : List Char)
deriving DecidableEq

/-- The characters of a segment without the highlight markers. -/
def Seg.payload : Seg → List Char
  | .raw s => s
  | .hl s => s

/-- Concatenation of the segment payloads: the output with every highlight
marker removed. -/
def segsStrip : List Seg → List Char
  | [] => []
  | s :: rest => s.payload ++ segsStrip rest

/-- Result of running the print_highlighted loop: normal completion with
the emitted segments, a slice-bounds panic, or exhaustion of the step
budget (the loop has not finished within the given number of iterations). -/
inductive PhResult
  | ok (segs : List Seg)
  | panicked
  | fuelOut
deriving DecidableEq

/-- Checked slice s[i..j] of Rust: defined exactly when i ≤ j ≤ length. -/
def slice? (l : List Char) (i j : Nat) : Option (List Char) :=
  if i ≤ j ∧ j ≤ l.length then some ((l.take j).drop i) else none

/-- The while-let loop of print_highlighted in src/lib.rs.  The cursor
start advances by position + query.len() after each occurrence found in
target_line; the spans printed are sliced out of the original line.  The
first parameter is the remaining iteration budget. -/
def phLoop (line targetLine targetQuery : List Char) (queryLen : Nat) :
    Nat → Nat → List Seg → PhResult
  | 0, _, _ => .fuelOut
  | fuel + 1, start, acc =>
    match slice? targetLine start targetLine.length with
    | none => .panicked
    | some rem =>
      match findSub targetQuery rem with
      | none =>
        match slice? line start line.length with
        | none => .panicked
        | some tail => .ok (acc ++ [.raw (tail ++ ['\n'])])
      | some position =>
        match slice? line start (start + position),
              slice? line (start + position) (start + position + queryLen) with
        | some pre, some mat =>
          phLoop line targetLine targetQuery queryLen fuel
            (start + position + queryLen) (acc ++ [.raw pre, .hl mat])
        | _, _ => .panicked

/-- print_highlighted from src/lib.rs: lower the line and the query when
the search is case-insensitive, then run the highlighting loop from cursor
0 with the length of the original query as the advance width. -/
def printHighlighted (fuel : Nat) (query : List Char) (ignore_case : Bool)
    (line : List Char) : PhResult :=
  let target_line := if ignore_case then toLowercase line else line
  let target_query := if ignore_case then toLowercase query else query
  phLoop line target_line target_query query.length fuel 0 []

/-- The case-resolution rule exactly as the specification words it: false
when any token equals -ni or --no-ignore-case, else true when any token
equals -i or --ignore-case, else true exactly when IGNORE_CASE is defined. -/
def ignoreCaseSpec (args : List (List Char)) (env : Option (List Char)) : Bool :=
  if args.any (fun arg => arg == chars "-ni" || arg == chars "--no-ignore-case") then false
  else if args.any (fun arg => arg == chars "-i" || arg == chars "--ignore-case") then true
  else env.isSome

/-- Partial model of the Unicode Cased property, covering the character
ranges of lowerChar and their lowercase images: ASCII letters, cased
Latin-1, the Greek letter blocks, U+0130 and U+212A. -/
def isCased (c : Char) : Bool :=
  decide ((65 ≤ c.toNat ∧ c.toNat ≤ 90) ∨ (97 ≤ c.toNat ∧ c.toNat ≤ 122)
    ∨ (0xC0 ≤ c.toNat ∧ c.toNat ≤ 0xDE ∧ c.toNat ≠ 0xD7)
    ∨ (0xE0 ≤ c.toNat ∧ c.toNat ≤ 0xFE ∧ c.toNat ≠ 0xF7)
    ∨ (0x391 ≤ c.toNat ∧ c.toNat ≤ 0x3A9 ∧ c.toNat ≠ 0x3A2)
    ∨ (0x3B1 ≤ c.toNat ∧ c.toNat ≤ 0x3C9)
    ∨ c.toNat = 0x130 ∨ c.toNat = 0x212A)

/-- Partial model of the Unicode Case_Ignorable property: U+0307 COMBINING
DOT ABOVE, U+0027 APOSTROPHE and U+00B7 MIDDLE DOT. -/
def isCaseIgnorable (c : Char) : Bool :=
  decide (c.toNat = 0x307 ∨ c.toNat = 39 ∨ c.toNat = 0xB7)

/-- The case_ignorable_then_cased helper of Rust str::to_lowercase: skip
case-ignorable characters and test whether the next character is cased. -/
def caseIgnorableThenCased (l : List Char) : Bool :=
  match l.dropWhile isCaseIgnorable with
  | [] => false
  | c :: _ => isCased c

/-- The map_uppercase_sigma helper of Rust str::to_lowercase: a capital
sigma lowers to ς (U+03C2) when it ends a word - preceded, skipping
case-ignorables, by a cased character (before holds the preceding
characters nearest first) and not followed, skipping case-ignorables, by a
cased character - and to σ (U+03C3) otherwise. -/
def sigmaLower (before after : List Char) : List Char :=
  if caseIgnorableThenCased before && !(caseIgnorableThenCased after) then [Char.ofNat 0x3C2]
  else [Char.ofNat 0x3C3]

/-- Worker for the full model of Rust str::to_lowercase: the first argument
accumulates the characters already consumed, nearest first, as the
Final_Sigma context. -/
def toLowercaseFullAux : List Char → List Char → List Char
  | _, [] => []
  | before, c :: rest =>
    (if c.toNat = 0x3A3 then sigmaLower before rest else lowerChar c) ++
      toLowercaseFullAux (c :: before) rest

/-- Full model of Rust str::to_lowercase, including the Final_Sigma rule:
every character lowers by lowerChar except a capital sigma, which lowers
through sigmaLower using its context in the string. -/
def toLowercaseFull (s : List Char) : List Char := toLowercaseFullAux [] s

/-- The search function of src/lib.rs over the full lowercase model: the
same structure as search, with str::to_lowercase rendered by
toLowercaseFull instead of the context-free approximation. -/
def searchFull (query : List Char) (ignore_case : Bool) (contents : List Char) :
    List (List Char) :=
  let q := if ignore_case then toLowercaseFull query else query
  let lineFilter : List Char → Bool :=
    if ignore_case then fun line => containsStr (toLowercaseFull line) (toLowercaseFull q)
    else fun line => containsStr line q
  (rustLines contents).filter lineFilter

/-- The two unit tests of src/lib.rs, evaluated on the model. -/
theorem search_unit_tests :
    search (chars "duct") false
      (chars "Rust:\nsafe, fast, productive.\nPick three.\nDuct tape.") =
      [chars "safe, fast, productive."]
    ∧ search (chars "rUsT") true
      (chars "Rust:\nsafe, fast, productive.\nPick three.\nTrust me.") =
      [chars "Rust:", chars "Trust me."] := by
  constructor
  · decide
  · decide

theorem isPrefixOfB_iff : ∀ (n h : List Char), isPrefixOfB n h = true ↔ ∃ t, h = n ++ t := by
  intro n
  induction n with
  | nil => intro h; simp [isPrefixOfB]
  | cons a as ih =>
    intro h
    cases h with
    | nil => simp [isPrefixOfB]
    | cons b bs =>
      simp only [isPrefixOfB, Bool.and_eq_true, beq_iff_eq, ih bs]
      constructor
      · rintro ⟨rfl, t, rfl⟩; exact ⟨t, rfl⟩
      · rintro ⟨t, het⟩
        cases het
        exact ⟨rfl, t, rfl⟩

theorem findSub_nil (hay : List Char) : findSub [] hay = some 0 := by
  cases hay <;> rfl

theorem findSub_some (tq : List Char) :
    ∀ (hay : List Char) (p : Nat), findSub tq hay = some p → ∃ rest, hay.drop p = tq ++ rest := by
  intro hay
  induction hay with
  | nil =>
    intro p hp
    simp only [findSub] at hp
    split at hp
    · next hpre =>
      cases hp
      exact (isPrefixOfB_iff tq []).mp hpre
    · exact absurd hp (by simp)
  | cons c rest ih =>
    intro p hp
    simp only [findSub] at hp
    split at hp
    · next hpre =>
      cases hp
      exact (isPrefixOfB_iff tq (c :: rest)).mp hpre
    · next =>
      simp only [Option.map_eq_some'] at hp
      obtain ⟨p', hp', rfl⟩ := hp
      obtain ⟨r, hr⟩ := ih p' hp'
      exact ⟨r, by simpa using hr⟩

theorem findSub_of_exists (tq : List Char) :
    ∀ (hay : List Char), (∃ u v, hay = u ++ tq ++ v) → (findSub tq hay).isSome := by
  intro hay
  induction hay with
  | nil =>
    rintro ⟨u, v, huv⟩
    have hu : tq = [] := by
      cases u <;> cases tq <;> simp_all
    rw [hu]
    simp [findSub_nil]
  | cons c rest ih =>
    rintro ⟨u, v, huv⟩
    simp only [findSub]
    split
    · simp
    · next hnp =>
      cases u with
      | nil =>
        exfalso
        apply hnp
        rw [isPrefixOfB_iff]
        exact ⟨v, by simpa using huv⟩
      | cons x xs =>
        have hr : rest = xs ++ tq ++ v := by
          simpa using congrArg List.tail huv
        simpa using ih ⟨xs, v, hr⟩

theorem containsStr_iff (hay n : List Char) :
    containsStr hay n = true ↔ ∃ u v, hay = u ++ n ++ v := by
  constructor
  · intro h
    unfold containsStr at h
    rw [Option.isSome_iff_exists] at h
    obtain ⟨p, hp⟩ := h
    obtain ⟨r, hr⟩ := findSub_some n hay p hp
    refine ⟨hay.take p, r, ?_⟩
    conv_lhs => rw [← List.take_append_drop p hay]
    rw [hr, List.append_assoc]
  · intro h
    exact findSub_of_exists n hay h

theorem containsStr_nil (hay : List Char) : containsStr hay [] = true := by
  unfold containsStr
  rw [findSub_nil]
  rfl

theorem toLowercase_append (u v : List Char) :
    toLowercase (u ++ v) = toLowercase u ++ toLowercase v := by
  induction u with
  | nil => rfl
  | cons c rest ih => simp [toLowercase, ih]

theorem toNat_ofNat_valid (n : Nat) (h : n.isValidChar) : (Char.ofNat n).toNat = n := by
  simp [Char.ofNat, h, Char.toNat, Char.ofNatAux, UInt32.toNat, BitVec.toNat_ofNatLt]

theorem toLower_toNat_of_upper (c : Char) (h : 65 ≤ c.toNat ∧ c.toNat ≤ 90) :
    (Char.toLower c).toNat = c.toNat + 32 := by
  have hv : (c.toNat + 32).isValidChar := by
    constructor
    omega
  have heq : Char.toLower c = Char.ofNat (c.toNat + 32) := by
    simp only [Char.toLower]
    rw [if_pos ⟨h.1, h.2⟩]
  rw [heq, toNat_ofNat_valid _ hv]

theorem toLower_eq_self (c : Char) (h : ¬(65 ≤ c.toNat ∧ c.toNat ≤ 90)) :
    Char.toLower c = c := by
  simp only [Char.toLower]
  rw [if_neg]
  exact fun hc => h ⟨hc.1, hc.2⟩

theorem ne_dotted_of_toNat (d : Char) (h : d.toNat ≠ 0x130) : d ≠ 'İ' := by
  intro he
  rw [he] at h
  exact h rfl

theorem char_valid_of_small (n : Nat) (h : n < 0xd800) : n.isValidChar := by
  constructor
  omega

theorem lowerChar_eq_self (d : Char)
    (h1 : d ≠ 'İ') (h2 : d.toNat ≠ 0x212A)
    (h3 : ¬(0xC0 ≤ d.toNat ∧ d.toNat ≤ 0xDE ∧ d.toNat ≠ 0xD7))
    (h4 : ¬(0x391 ≤ d.toNat ∧ d.toNat ≤ 0x3A9 ∧ d.toNat ≠ 0x3A2))
    (h5 : ¬(65 ≤ d.toNat ∧ d.toNat ≤ 90)) :
    lowerChar d = [d] := by
  unfold lowerChar
  rw [if_neg h1, if_neg h2, if_neg h3, if_neg h4, toLower_eq_self d h5]

theorem lowerChar_output_fixed (c : Char) :
    ∀ d ∈ lowerChar c, (lowerChar d = [d] ∧ d.toNat ≠ 0x3A3) := by
  intro d hd
  by_cases g1 : c = 'İ'
  · rw [lowerChar, if_pos g1] at hd
    rcases List.mem_cons.mp hd with rfl | hd2
    · exact ⟨by decide, by decide⟩
    · rcases List.mem_singleton.mp hd2 with rfl
      exact ⟨by decide, by decide⟩
  · by_cases g2 : c.toNat = 0x212A
    · rw [lowerChar, if_neg g1, if_pos g2] at hd
      rcases List.mem_singleton.mp hd with rfl
      exact ⟨by decide, by decide⟩
    · by_cases g3 : 0xC0 ≤ c.toNat ∧ c.toNat ≤ 0xDE ∧ c.toNat ≠ 0xD7
      · rw [lowerChar, if_neg g1, if_neg g2, if_pos g3] at hd
        rcases List.mem_singleton.mp hd with rfl
        have hn : (Char.ofNat (c.toNat + 32)).toNat = c.toNat + 32 :=
          toNat_ofNat_valid _ (char_valid_of_small _ (by omega))
        refine ⟨lowerChar_eq_self _ (ne_dotted_of_toNat _ (by rw [hn]; omega))
          (by rw [hn]; omega) (by rw [hn]; omega) (by rw [hn]; omega) (by rw [hn]; omega),
          by rw [hn]; omega⟩
      · by_cases g4 : 0x391 ≤ c.toNat ∧ c.toNat ≤ 0x3A9 ∧ c.toNat ≠ 0x3A2
        · rw [lowerChar, if_neg g1, if_neg g2, if_neg g3, if_pos g4] at hd
          rcases List.mem_singleton.mp hd with rfl
          have hn : (Char.ofNat (c.toNat + 32)).toNat = c.toNat + 32 :=
            toNat_ofNat_valid _ (char_valid_of_small _ (by omega))
          refine ⟨lowerChar_eq_self _ (ne_dotted_of_toNat _ (by rw [hn]; omega))
            (by rw [hn]; omega) (by rw [hn]; omega) (by rw [hn]; omega) (by rw [hn]; omega),
            by rw [hn]; omega⟩
        · rw [lowerChar, if_neg g1, if_neg g2, if_neg g3, if_neg g4] at hd
          rcases List.mem_singleton.mp hd with rfl
          by_cases hu : 65 ≤ c.toNat ∧ c.toNat ≤ 90
          · have hn : (Char.toLower c).toNat = c.toNat + 32 := toLower_toNat_of_upper c hu
            refine ⟨lowerChar_eq_self _ (ne_dotted_of_toNat _ (by rw [hn]; omega))
              (by rw [hn]; omega) (by rw [hn]; omega) (by rw [hn]; omega) (by rw [hn]; omega),
              by rw [hn]; omega⟩
          · rw [toLower_eq_self c hu]
            refine ⟨lowerChar_eq_self _ g1 g2 g3 g4 hu, ?_⟩
            intro he
            exact g4 ⟨by omega, by omega, by omega⟩

theorem toLowercase_of_fixed (s : List Char) (h : ∀ d ∈ s, lowerChar d = [d]) :
    toLowercase s = s := by
  induction s with
  | nil => rfl
  | cons c rest ih =>
    rw [toLowercase, h c (by simp), ih (fun d hd => h d (by simp [hd]))]
    rfl

theorem mem_toLowercase (s : List Char) (d : Char) (hd : d ∈ toLowercase s) :
    ∃ c ∈ s, d ∈ lowerChar c := by
  induction s with
  | nil => simp [toLowercase] at hd
  | cons c rest ih =>
    rw [toLowercase] at hd
    rcases List.mem_append.mp hd with h1 | h2
    · exact ⟨c, by simp, h1⟩
    · obtain ⟨c', hc', hd'⟩ := ih h2
      exact ⟨c', by simp [hc'], hd'⟩

theorem toLowercase_fixed (s : List Char) :
    ∀ d ∈ toLowercase s, (lowerChar d = [d] ∧ d.toNat ≠ 0x3A3) := by
  intro d hd
  obtain ⟨c, _, hdc⟩ := mem_toLowercase s d hd
  exact lowerChar_output_fixed c d hdc

theorem lowerChar_idem (c : Char) : toLowercase (lowerChar c) = lowerChar c :=
  toLowercase_of_fixed _ (fun d hd => (lowerChar_output_fixed c d hd).1)

theorem toLowercase_idem (s : List Char) : toLowercase (toLowercase s) = toLowercase s :=
  toLowercase_of_fixed _ (fun d hd => (toLowercase_fixed s d hd).1)

theorem lowerChar_of_single (c : Char) (h : (lowerChar c).length = 1) :
    lowerChar c = [foldChar c] := by
  unfold foldChar
  cases hl : lowerChar c with
  | nil => rw [hl] at h; simp at h
  | cons x xs =>
    rw [hl] at h
    simp at h
    subst h
    rfl

theorem toLowercase_map_of_single (l : List Char) (h : ∀ c ∈ l, (lowerChar c).length = 1) :
    toLowercase l = l.map foldChar := by
  induction l with
  | nil => rfl
  | cons c rest ih =>
    simp only [toLowercase, List.map_cons]
    rw [lowerChar_of_single c (h c (by simp)), ih (fun x hx => h x (by simp [hx]))]
    rfl

theorem toLowercase_length_of_single (l : List Char) (h : ∀ c ∈ l, (lowerChar c).length = 1) :
    (toLowercase l).length = l.length := by
  rw [toLowercase_map_of_single l h, List.length_map]

theorem slice?_to_end (l : List Char) (i : Nat) (h : i ≤ l.length) :
    slice? l i l.length = some (l.drop i) := by
  simp [slice?, h, List.take_length]

theorem slice?_of_le (l : List Char) (i j : Nat) (h1 : i ≤ j) (h2 : j ≤ l.length) :
    slice? l i j = some ((l.take j).drop i) := by
  simp [slice?, h1, h2]

theorem segsStrip_append (a b : List Seg) :
    segsStrip (a ++ b) = segsStrip a ++ segsStrip b := by
  induction a with
  | nil => rfl
  | cons s rest ih => simp [segsStrip, ih]

theorem phLoop_spec (f : Char → Char) (line tq : List Char) (hq : tq ≠ []) :
    ∀ (fuel start : Nat) (acc : List Seg), start ≤ line.length → line.length - start < fuel →
    ∃ segs, phLoop line (line.map f) tq tq.length fuel start acc = PhResult.ok (acc ++ segs)
      ∧ segsStrip segs = line.drop start ++ ['\n']
      ∧ ∀ s, Seg.hl s ∈ segs → s.map f = tq ∧ ∀ c ∈ s, c ∈ line := by
  intro fuel
  induction fuel with
  | zero =>
    intro start acc _ h2
    omega
  | succ fuel ih =>
    intro start acc hstart hfuel
    have hmaplen : (line.map f).length = line.length := List.length_map line f
    have hs1 : slice? (line.map f) start (line.map f).length = some ((line.map f).drop start) :=
      slice?_to_end _ _ (by rw [hmaplen]; exact hstart)
    cases hfind : findSub tq ((line.map f).drop start) with
    | none =>
      have hs4 : slice? line start line.length = some (line.drop start) :=
        slice?_to_end _ _ hstart
      refine ⟨[Seg.raw (line.drop start ++ ['\n'])], ?_, ?_, ?_⟩
      · simp only [phLoop, hs1, hfind, hs4]
      · simp [segsStrip, Seg.payload]
      · intro s hs
        simp only [List.mem_singleton] at hs
        cases hs
    | some p =>
      obtain ⟨rest, hrest⟩ := findSub_some tq _ p hfind
      have htqpos : 0 < tq.length := List.length_pos.mpr hq
      have hlen2 : line.length - start - p = tq.length + rest.length := by
        have hc := congrArg List.length hrest
        rw [List.length_drop, List.length_drop, hmaplen, List.length_append] at hc
        omega
      have hple : start + p + tq.length ≤ line.length := by omega
      have hs2 : slice? line start (start + p) = some ((line.take (start + p)).drop start) :=
        slice?_of_le _ _ _ (by omega) (by omega)
      have hs3 : slice? line (start + p) (start + p + tq.length) =
          some ((line.take (start + p + tq.length)).drop (start + p)) :=
        slice?_of_le _ _ _ (by omega) (by omega)
      have hpre : (line.take (start + p)).drop start = (line.drop start).take p := by
        rw [List.drop_take]
        congr 1
        omega
      have hmatval : (line.take (start + p + tq.length)).drop (start + p) =
          ((line.drop start).drop p).take tq.length := by
        rw [List.drop_take]
        have h1 : start + p + tq.length - (start + p) = tq.length := by omega
        rw [h1, ← List.drop_drop]
      have hmatf : (((line.drop start).drop p).take tq.length).map f = tq := by
        rw [List.map_take, List.map_drop, List.map_drop, hrest, List.take_left]
      obtain ⟨segs', hrun, hstrip, hhl⟩ :=
        ih (start + p + tq.length)
          (acc ++ [Seg.raw ((line.drop start).take p),
                   Seg.hl (((line.drop start).drop p).take tq.length)])
          hple (by omega)
      refine ⟨Seg.raw ((line.drop start).take p) ::
              Seg.hl (((line.drop start).drop p).take tq.length) :: segs', ?_, ?_, ?_⟩
      · simp only [phLoop, hs1, hfind, hs2, hs3, hpre, hmatval]
        rw [hrun]
        congr 1
        simp
      · simp only [segsStrip, Seg.payload, hstrip]
        have hdd : line.drop (start + p + tq.length) =
            ((line.drop start).drop p).drop tq.length := by
          rw [List.drop_drop, List.drop_drop]
          congr 1
          omega
        rw [hdd]
        rw [← List.append_assoc, ← List.append_assoc]
        rw [List.append_assoc ((line.drop start).take p)]
        rw [List.take_append_drop, List.take_append_drop]
      · intro s hs
        simp only [List.mem_cons] at hs
        rcases hs with h1 | h2 | h3
        · cases h1
        · cases h2
          refine ⟨hmatf, ?_⟩
          intro c hc
          have hc1 := (List.take_sublist _ _).subset hc
          have hc2 := (List.drop_sublist _ _).subset hc1
          exact (List.drop_sublist _ _).subset hc2
        · exact hhl s h3

theorem phLoop_nil_query (line tl : List Char) :
    ∀ (fuel : Nat) (acc : List Seg), phLoop line tl [] 0 fuel 0 acc = PhResult.fuelOut := by
  intro fuel
  induction fuel with
  | zero => intro acc; rfl
  | succ fuel ih =>
    intro acc
    have hs1 : slice? tl 0 tl.length = some (tl.drop 0) := slice?_to_end tl 0 (Nat.zero_le _)
    have hz : slice? line 0 0 = some [] := by simp [slice?]
    simp only [phLoop, hs1, findSub_nil, Nat.add_zero, hz]
    exact ih _

/-- Claim C3 (code-bug evidence): print_highlighted called with an empty query
does not terminate.  Rust str::find with an empty pattern returns Some(0), so
the cursor advances by position + query.len() = 0 on every iteration; for every
iteration budget the loop exhausts it without completing, for either value of
ignore_case.  The claim states the renderer terminates and emits the line. -/
theorem print_highlighted_empty_query_diverges (fuel : Nat) (ic : Bool) (line : List Char) :
    printHighlighted fuel [] ic line = PhResult.fuelOut := by
  cases ic
  · exact phLoop_nil_query line line fuel []
  · exact phLoop_nil_query line (toLowercase line) fuel []

/-- Claim C7: for every non-empty query and every line, under
ignore_case = false, the highlighting loop completes within line.length + 1
iterations and the concatenation of its segment payloads - the output with
every highlight marker removed - is exactly the original line followed by a
trailing line break. -/
theorem print_highlighted_roundtrip (query line : List Char) (hq : query ≠ [])
    (_hocc : containsStr line query = true) :
    ∃ segs, printHighlighted (line.length + 1) query false line = PhResult.ok segs
      ∧ segsStrip segs = line ++ ['\n'] := by
  obtain ⟨segs, hrun, hstrip, _⟩ :=
    phLoop_spec id line query hq (line.length + 1) 0 [] (Nat.zero_le _) (by omega)
  rw [List.map_id] at hrun
  refine ⟨segs, ?_, ?_⟩
  · show phLoop line line query query.length (line.length + 1) 0 [] = _
    simpa using hrun
  · simpa using hstrip

/-- Claim C9: under ignore_case = true, for a matched line and a non-empty
query whose characters all have single-character lowercase forms (the
length-parity assumption), the loop completes without a bounds panic - every
slice it takes from the original line is in range - the stripped output is the
line plus a line break, and every highlighted span is an occurrence of the
query up to case. -/
theorem print_highlighted_fold_safe (query line : List Char)
    (hq1 : ∀ c ∈ query, (lowerChar c).length = 1)
    (hl1 : ∀ c ∈ line, (lowerChar c).length = 1)
    (hqne : query ≠ [])
    (_hmatch : containsStr (toLowercase line) (toLowercase query) = true) :
    ∃ segs, printHighlighted (line.length + 1) query true line = PhResult.ok segs
      ∧ segsStrip segs = line ++ ['\n']
      ∧ ∀ s, Seg.hl s ∈ segs → toLowercase s = toLowercase query := by
  have hqlen : (toLowercase query).length = query.length := toLowercase_length_of_single query hq1
  have htq : toLowercase query ≠ [] := by
    intro h
    rw [h] at hqlen
    exact hqne (List.eq_nil_of_length_eq_zero hqlen.symm)
  have hmap : toLowercase line = line.map foldChar := toLowercase_map_of_single line hl1
  obtain ⟨segs, hrun, hstrip, hhl⟩ :=
    phLoop_spec foldChar line (toLowercase query) htq (line.length + 1) 0 []
      (Nat.zero_le _) (by omega)
  refine ⟨segs, ?_, by simpa using hstrip, ?_⟩
  · show phLoop line (toLowercase line) (toLowercase query) query.length (line.length + 1) 0 [] = _
    rw [hmap, ← hqlen]
    simpa using hrun
  · intro s hs
    obtain ⟨hsf, hsub⟩ := hhl s hs
    have hsl : toLowercase s = s.map foldChar :=
      toLowercase_map_of_single s (fun c hc => hl1 c (hsub c hc))
    rw [hsl, hsf]

/-- Claim C4: for every token list and every environment state, the resolved
ignore_case is false if any token equals -ni or --no-ignore-case, otherwise
true if any token equals -i or --ignore-case, otherwise true exactly when
IGNORE_CASE is defined (with any value) and false when it is undefined. -/
theorem get_ignore_case_spec (args : List (List Char)) (env : Option (List Char)) :
    get_ignore_case args env = ignoreCaseSpec args env := rfl

/-- Claim C1 (code-bug evidence): with the single token -h, get_query returns
the token as the query instead of the help outcome, because the source
condition !contains("-h") || !contains("--help") holds for -h (which does not
contain "--help"); the token --help, which contains both substrings, does
produce the help outcome.  The claim states that both -h and --help produce
the help outcome. -/
theorem get_query_help_divergence :
    get_query [chars "-h"] = QueryResult.found (chars "-h")
    ∧ get_query [chars "--help"] = QueryResult.helpExit := by
  decide

/-- Claim C5: search returns exactly those lines of the contents (split with
no trailing empty line for a final newline) whose folded form - folded only
when ignore_case is true - contains the folded query as a contiguous
substring, in original line order with original casing (the result is a filter
of the line list, so no reordering, no deduplication, no rewriting), and an
empty query matches every line. -/
theorem search_matches_spec (q : List Char) (ic : Bool) (contents : List Char) :
    search q ic contents = (rustLines contents).filter
        (fun l => containsStr (if ic then toLowercase l else l) (if ic then toLowercase q else q))
    ∧ search [] ic contents = rustLines contents := by
  constructor
  · cases ic
    · rfl
    · show (rustLines contents).filter
          (fun line => containsStr (toLowercase line) (toLowercase (toLowercase q))) = _
      apply List.filter_congr
      intro l _
      simp [toLowercase_idem]
  · cases ic
    · show (rustLines contents).filter (fun line => containsStr line []) = _
      rw [List.filter_eq_self]
      intro a _
      exact containsStr_nil a
    · show (rustLines contents).filter
          (fun line => containsStr (toLowercase line) (toLowercase (toLowercase []))) = _
      rw [List.filter_eq_self]
      intro a _
      exact containsStr_nil (toLowercase a)

theorem toLowercaseFullAux_no_sigma (s : List Char) (h : ∀ c ∈ s, c.toNat ≠ 0x3A3) :
    ∀ before, toLowercaseFullAux before s = toLowercase s := by
  induction s with
  | nil => intro before; rfl
  | cons c rest ih =>
    intro before
    rw [toLowercaseFullAux, if_neg (h c (by simp)), toLowercase,
      ih (fun d hd => h d (by simp [hd])) (c :: before)]

theorem toLowercaseFullAux_split (u : List Char) :
    ∀ (w before : List Char), ∃ A, toLowercaseFullAux before (u ++ w) =
      A ++ toLowercaseFullAux (u.reverse ++ before) w := by
  induction u with
  | nil => intro w before; exact ⟨[], rfl⟩
  | cons c u' ih =>
    intro w before
    obtain ⟨A', hA'⟩ := ih w (c :: before)
    refine ⟨(if c.toNat = 0x3A3 then sigmaLower before (u' ++ w) else lowerChar c) ++ A', ?_⟩
    rw [List.cons_append, toLowercaseFullAux, hA']
    simp [List.append_assoc]

theorem toLowercaseFullAux_front (q : List Char) (hq : ∀ c ∈ q, c.toNat ≠ 0x3A3) :
    ∀ (v before : List Char), ∃ B, toLowercaseFullAux before (q ++ v) =
      toLowercase q ++ B := by
  induction q with
  | nil => intro v before; exact ⟨toLowercaseFullAux before v, rfl⟩
  | cons c q' ih =>
    intro v before
    obtain ⟨B, hB⟩ := ih (fun d hd => hq d (by simp [hd])) v (c :: before)
    refine ⟨B, ?_⟩
    rw [List.cons_append, toLowercaseFullAux, if_neg (hq c (by simp)), hB, toLowercase,
      List.append_assoc]

theorem toLowercaseFull_no_sigma (s : List Char) (h : ∀ c ∈ s, c.toNat ≠ 0x3A3) :
    toLowercaseFull s = toLowercase s :=
  toLowercaseFullAux_no_sigma s h []

theorem toLowercaseFull_double (q : List Char) (hq : ∀ c ∈ q, c.toNat ≠ 0x3A3) :
    toLowercaseFull (toLowercaseFull q) = toLowercase q := by
  rw [toLowercaseFull_no_sigma q hq,
    toLowercaseFull_no_sigma _ (fun d hd => (toLowercase_fixed q d hd).2),
    toLowercase_of_fixed _ (fun d hd => (toLowercase_fixed q d hd).1)]

/-- Claim C6 (counterexample): the case-insensitive result set is not a
superset of the case-sensitive one.  For the query ΑΣ and the text ΑΣΑ the
case-sensitive search returns the line, but str::to_lowercase folds the
standalone query to ας (word-final sigma becomes ς under the Final_Sigma
rule) while the line folds to ασα (the sigma there is followed by a cased
letter and becomes σ), and ασα does not contain ας, so the case-insensitive
search returns nothing. -/
theorem searchFull_sigma_counterexample :
    chars "ΑΣΑ" ∈ searchFull (chars "ΑΣ") false (chars "ΑΣΑ")
    ∧ searchFull (chars "ΑΣ") true (chars "ΑΣΑ") = [] := by
  constructor
  · decide
  · decide

/-- Claim C6 (amended): for every query that contains no capital sigma
(U+03A3) and every text, every line returned by the case-sensitive search
is also returned by the case-insensitive search.  Without a capital sigma
the folding of the query is context-free, so the fold of an occurrence
inside a line equals the fold of the standalone query. -/
theorem searchFull_insensitive_superset (q t l : List Char)
    (hq : ∀ c ∈ q, c.toNat ≠ 0x3A3)
    (h : l ∈ searchFull q false t) : l ∈ searchFull q true t := by
  have hmem : l ∈ rustLines t ∧ containsStr l q = true := by
    have h' : l ∈ (rustLines t).filter (fun line => containsStr line q) := h
    exact List.mem_filter.mp h'
  obtain ⟨u, v, rfl⟩ := (containsStr_iff l q).mp hmem.2
  show (u ++ q ++ v) ∈ (rustLines t).filter
      (fun line => containsStr (toLowercaseFull line) (toLowercaseFull (toLowercaseFull q)))
  rw [List.mem_filter]
  refine ⟨hmem.1, ?_⟩
  rw [toLowercaseFull_double q hq, containsStr_iff]
  obtain ⟨A, hA⟩ := toLowercaseFullAux_split u (q ++ v) []
  obtain ⟨B, hB⟩ := toLowercaseFullAux_front q hq v (u.reverse ++ [])
  refine ⟨A, B, ?_⟩
  rw [toLowercaseFull, List.append_assoc, hA, hB, List.append_assoc]

theorem dropWhile_head_not (p : Char → Bool) :
    ∀ (l : List Char) (c : Char), (l.dropWhile p).head? = some c → p c = false := by
  intro l
  induction l with
  | nil => intro c h; simp [List.dropWhile] at h
  | cons x xs ih =>
    intro c h
    rw [List.dropWhile_cons] at h
    split at h
    · exact ih c h
    · next hpx =>
      simp only [List.head?_cons, Option.some.injEq] at h
      subst h
      exact Bool.not_eq_true _ ▸ Bool.of_not_eq_true hpx

theorem takeWhile_eq_replicate (c : Char) (l : List Char) :
    l.takeWhile (· == c) = List.replicate (l.takeWhile (· == c)).length c := by
  rw [List.eq_replicate_iff]
  refine ⟨rfl, ?_⟩
  intro b hb
  have hp := List.mem_takeWhile_imp hb
  simpa using hp

theorem head?_append_left (t x : List Char) (c : Char) (h : t.head? = some c) :
    (t ++ x).head? = some c := by
  cases t with
  | nil => simp at h
  | cons a as => simpa using h

theorem trimMatches_decomp (s : List Char) :
    s = List.replicate (s.takeWhile (· == '"')).length '"' ++
        (trimMatches '"' s ++
         List.replicate ((s.dropWhile (· == '"')).reverse.takeWhile (· == '"')).length '"') := by
  conv_lhs => rw [← List.takeWhile_append_dropWhile (p := (· == '"')) (l := s)]
  congr 1
  · exact takeWhile_eq_replicate '"' s
  · conv_lhs => rw [← List.reverse_reverse (s.dropWhile (· == '"')),
      ← List.takeWhile_append_dropWhile (p := (· == '"'))
        (l := (s.dropWhile (· == '"')).reverse),
      List.reverse_append]
    congr 1
    rw [takeWhile_eq_replicate, List.reverse_replicate, List.length_replicate]

/-- Claim C2 (amended): when no token contains a path separator, the
resolver reads all of standard input and strips all leading and all trailing
double-quote characters: the input decomposes as a run of quotes, the result,
and a run of quotes, where the result neither starts nor ends with a quote. -/
theorem get_input_trim_spec (args : List (List Char)) (s : List Char)
    (h : args.find? hasPathSep = none) :
    ∃ t a b, get_input args (StdinRead.ok s) = InputResult.ok (InputType.LiteralInput t)
      ∧ s = List.replicate a '"' ++ (t ++ List.replicate b '"')
      ∧ (∀ c, t.head? = some c → c ≠ '"')
      ∧ (∀ c, t.getLast? = some c → c ≠ '"') := by
  refine ⟨trimMatches '"' s, (s.takeWhile (· == '"')).length,
          ((s.dropWhile (· == '"')).reverse.takeWhile (· == '"')).length, ?_, ?_, ?_, ?_⟩
  · simp only [get_input, h]
  · exact trimMatches_decomp s
  · intro c hc heq
    subst heq
    have hu : (s.dropWhile (· == '"')).head? = some '"' := by
      have hd := trimMatches_decomp s
      have hd2 : s.dropWhile (· == '"') =
          trimMatches '"' s ++
          List.replicate ((s.dropWhile (· == '"')).reverse.takeWhile (· == '"')).length '"' := by
        conv_lhs => rw [← List.reverse_reverse (s.dropWhile (· == '"')),
          ← List.takeWhile_append_dropWhile (p := (· == '"'))
            (l := (s.dropWhile (· == '"')).reverse),
          List.reverse_append]
        congr 1
        rw [takeWhile_eq_replicate, List.reverse_replicate, List.length_replicate]
      rw [hd2]
      exact head?_append_left _ _ _ hc
    have := dropWhile_head_not (· == '"') s '"' hu
    simp at this
  · intro c hc heq
    subst heq
    have hrv : ((s.dropWhile (· == '"')).reverse.dropWhile (· == '"')).head? = some '"' := by
      have h1 : (trimMatches '"' s).reverse =
          (s.dropWhile (· == '"')).reverse.dropWhile (· == '"') := by
        simp [trimMatches, List.reverse_reverse]
      rw [← h1, List.head?_reverse]
      exact hc
    have := dropWhile_head_not (· == '"') _ '"' hrv
    simp at this

/-- Claim C2 (counterexample): on the standard-input string ""a"" (two quote
characters on each side) the resolver yields the bare literal a, so the inner
quote characters are not preserved: trim_matches removes every leading and
trailing quote, not only a single outermost pair as the claim states. -/
theorem get_input_quote_counterexample :
    get_input [] (StdinRead.ok (chars "\"\"a\"\"")) =
      InputResult.ok (InputType.LiteralInput (chars "a")) := by
  decide

/-- Claim C8 (counterexample): with the tokens mgrep a/b the token list
remaining after query extraction is empty and contains no path separator, yet
the resolved input source is FilePath a/b and standard input is not consumed:
the input-source scan includes the query token, contra the claim. -/
theorem get_input_scans_query_token_cex :
    Config.build [chars "mgrep", chars "a/b"] none (StdinRead.ok (chars "hello")) =
      BuildResult.ok { query := chars "a/b", ignore_case := false,
                       input := InputType.FilePath (chars "a/b") } := by
  decide

/-- Claim C8 (amended): input-source selection scans all tokens after the
program name, the query token included; the first token containing / or \\
becomes FilePath; only when no token contains a separator is standard input
consumed as LiteralText, and a standard-input read failure propagates as an
error, surfacing as a build failure through Config::build. -/
theorem get_input_selection_spec (args : List (List Char)) (stdin : StdinRead) :
    (∀ first, args.find? hasPathSep = some first →
        get_input args stdin = InputResult.ok (InputType.FilePath first))
    ∧ (args.find? hasPathSep = none → ∀ s, stdin = StdinRead.ok s →
        get_input args stdin = InputResult.ok (InputType.LiteralInput (trimMatches '"' s)))
    ∧ (args.find? hasPathSep = none → stdin = StdinRead.err →
        get_input args stdin = InputResult.readErr)
    ∧ (∀ argv env q, args = argv.tail → get_query args = QueryResult.found q →
        args.find? hasPathSep = none → stdin = StdinRead.err →
        Config.build argv env stdin = BuildResult.buildErr) := by
  refine ⟨?_, ?_, ?_, ?_⟩
  · intro first hf
    simp [get_input, hf]
  · intro hn s hs
    subst hs
    simp [get_input, hn]
  · intro hn hs
    subst hs
    simp [get_input, hn]
  · intro argv env q htail hq hn hs
    subst hs
    subst htail
    simp [Config.build, hq, get_input, hn]

/-- Claim C10: flag and path detection scan the query token itself: a
query-position token equal to -i or --ignore-case is returned as the query and
resolves ignore_case to true when no no-ignore-case flag follows; one equal to
-ni or --no-ignore-case is returned as the query and resolves ignore_case to
false; and a query-position token containing a path separator is itself
selected as the FilePath input source. -/
theorem flags_and_path_in_query_position (rest : List (List Char)) (env : Option (List Char))
    (tok : List Char) (stdin : StdinRead) :
    ((tok = chars "-i" ∨ tok = chars "--ignore-case") → hasNoIgnoreFlag rest = false →
        get_query (tok :: rest) = QueryResult.found tok
        ∧ get_ignore_case (tok :: rest) env = true)
    ∧ ((tok = chars "-ni" ∨ tok = chars "--no-ignore-case") →
        get_query (tok :: rest) = QueryResult.found tok
        ∧ get_ignore_case (tok :: rest) env = false)
    ∧ (hasPathSep tok = true →
        get_input (tok :: rest) stdin = InputResult.ok (InputType.FilePath tok)) := by
  refine ⟨?_, ?_, ?_⟩
  · rintro (rfl | rfl) hni
    · refine ⟨rfl, ?_⟩
      have h1 : hasNoIgnoreFlag (chars "-i" :: rest) = false := by
        simp only [hasNoIgnoreFlag, List.any_cons] at hni ⊢
        rw [hni]
        decide
      have h2 : hasIgnoreFlag (chars "-i" :: rest) = true := by
        simp only [hasIgnoreFlag, List.any_cons]
        rw [Bool.or_eq_true]
        left
        decide
      simp [get_ignore_case, h1, h2]
    · refine ⟨rfl, ?_⟩
      have h1 : hasNoIgnoreFlag (chars "--ignore-case" :: rest) = false := by
        simp only [hasNoIgnoreFlag, List.any_cons] at hni ⊢
        rw [hni]
        decide
      have h2 : hasIgnoreFlag (chars "--ignore-case" :: rest) = true := by
        simp only [hasIgnoreFlag, List.any_cons]
        rw [Bool.or_eq_true]
        left
        decide
      simp [get_ignore_case, h1, h2]
  · rintro (rfl | rfl)
    · refine ⟨rfl, ?_⟩
      have h1 : hasNoIgnoreFlag (chars "-ni" :: rest) = true := by
        simp only [hasNoIgnoreFlag, List.any_cons]
        rw [Bool.or_eq_true]
        left
        decide
      simp [get_ignore_case, h1]
    · refine ⟨rfl, ?_⟩
      have h1 : hasNoIgnoreFlag (chars "--no-ignore-case" :: rest) = true := by
        simp only [hasNoIgnoreFlag, List.any_cons]
        rw [Bool.or_eq_true]
        left
        decide
      simp [get_ignore_case, h1]
  · intro hsep
    have hf : (tok :: rest).find? hasPathSep = some tok := List.find?_cons_of_pos _ hsep
    simp [get_input, hf]

/-- Witness for the amended claim C6 at a concrete query, text and line. -/
theorem searchFull_insensitive_superset_w :
    chars "ab" ∈ searchFull (chars "a") true (chars "ab\ncd") :=
  searchFull_insensitive_superset (chars "a") (chars "ab\ncd") (chars "ab") (by decide)
    (by decide)

/-- Witness for claim C7 at a concrete query and line. -/
theorem print_highlighted_roundtrip_w :
    ∃ segs, printHighlighted ((chars "xaby").length + 1) (chars "ab") false (chars "xaby") =
        PhResult.ok segs
      ∧ segsStrip segs = chars "xaby" ++ ['\n'] :=
  print_highlighted_roundtrip (chars "ab") (chars "xaby") (by decide) (by decide)

/-- Witness for claim C9 at a concrete mixed-case query and line. -/
theorem print_highlighted_fold_safe_w :
    ∃ segs, printHighlighted ((chars "xAby").length + 1) (chars "aB") true (chars "xAby") =
        PhResult.ok segs
      ∧ segsStrip segs = chars "xAby" ++ ['\n']
      ∧ ∀ s, Seg.hl s ∈ segs → toLowercase s = toLowercase (chars "aB") :=
  print_highlighted_fold_safe (chars "aB") (chars "xAby") (by decide) (by decide)
    (by decide) (by decide)

/-- Witness for the amended claim C2 at a concrete quoted input. -/
theorem get_input_trim_spec_w :
    ∃ t a b, get_input [] (StdinRead.ok (chars "\"a\"")) =
        InputResult.ok (InputType.LiteralInput t)
      ∧ chars "\"a\"" = List.replicate a '"' ++ (t ++ List.replicate b '"')
      ∧ (∀ c, t.head? = some c → c ≠ '"')
      ∧ (∀ c, t.getLast? = some c → c ≠ '"') :=
  get_input_trim_spec [] (chars "\"a\"") rfl

/-- Witness for the amended claim C8 at a concrete path token. -/
theorem get_input_selection_spec_w :
    get_input [chars "a/b"] StdinRead.err = InputResult.ok (InputType.FilePath (chars "a/b")) :=
  (get_input_selection_spec [chars "a/b"] StdinRead.err).1 (chars "a/b") (by decide)

/-- Witness for claim C10 with -i in the query position. -/
theorem flags_and_path_in_query_position_w :
    get_query [chars "-i"] = QueryResult.found (chars "-i")
    ∧ get_ignore_case [chars "-i"] none = true :=
  (flags_and_path_in_query_position [] none (chars "-i") StdinRead.err).1 (Or.inl rfl) rfl
